import Mathlib

/-!
Shallow embedding of `rl_coach/memories/non_episodic/distributed_experience_replay.py`
(class `DistributedExperienceReplay`), a replay buffer backed by a redis database.

The backing key-value service is an external collaborator; it is modelled from the
spec's interface (Put/Get/Delete/Count/RandomKey over one namespace).  Each redis
command is a state transformer on the namespace so that the buffer operations
thread the store exactly as the Python code sequences its remote calls.  The
unbounded `while` loops of `sample` and `_enforce_max_length` consume a finite
oracle of random draws (`seeds`); exhausting the oracle models a loop that is
still running.
-/

/-- One environment step record.  The buffer treats it as an opaque payload and
never inspects a field except `reward` (used by `mean_reward`). -/
structure Transition where
  obs : Nat
  act : Nat
  reward : ℚ
  nextObs : Nat
  terminalFlag : Bool
  deriving DecidableEq, Repr

/-- Modelled from the spec: the injected pickle codec (an external collaborator);
serialization is total and round-trips on buffer-produced payloads. -/
structure Blob where
  payload : Transition
  deriving DecidableEq, Repr

/-- Source `pickle.dumps` applied to a transition. -/
def dumps (t : Transition) : Blob := ⟨t⟩

/-- Source `pickle.loads` applied to a present (non-absent) blob. -/
def loads (b : Blob) : Transition := b.payload

/-- Keys minted by `store` (uuid4 in the source); modelled as naturals. -/
abbrev Key := Nat

/-- Modelled from the spec: one redis database (the buffer's namespace), an
association list from keys to blobs.  Redis keys are unique; list order is the
arbitrary order `RANDOMKEY` indexes into. -/
abbrev Store := List (Key × Blob)

/-- Keys of a namespace, in store order. -/
def storeKeys (st : Store) : List Key := st.map Prod.fst

/-- Association-list lookup, first binding wins (redis GET, python dict read). -/
def alistLookup {β : Type} (k : Key) : List (Key × β) → Option β
  | [] => none
  | p :: rest => if p.1 = k then some p.2 else alistLookup k rest

/-- Modelled from the spec: GET, a point read; the store is unchanged. -/
def cmdGet (k : Key) (st : Store) : Option Blob × Store := (alistLookup k st, st)

/-- Modelled from the spec: SET, an upsert.  A present key keeps its position,
a fresh key is appended. -/
def cmdSet (k : Key) (b : Blob) (st : Store) : Store :=
  if (alistLookup k st).isSome then st.map (fun p => if p.1 = k then (k, b) else p)
  else st ++ [(k, b)]

/-- Modelled from the spec: DEL, removes the binding of `k`; a no-op when `k`
is absent. -/
def cmdDel (k : Key) : Store → Store
  | [] => []
  | p :: rest => if p.1 = k then rest else p :: cmdDel k rest

/-- Modelled from the spec: the collaborator count of live keys in this
namespace (the source parses `INFO keyspace`); a read. -/
def cmdCount (st : Store) : Nat × Store := (st.length, st)

/-- Modelled from the spec: RANDOMKEY.  A seed selects one live key; the reply
is absent exactly when the namespace is empty; a read. -/
def cmdRandomkey (seed : Nat) (st : Store) : Option Key × Store :=
  ((storeKeys st)[seed % st.length]?, st)

/-- Source `num_transitions`: forwards to the collaborator count. -/
def num_transitions (st : Store) : Nat := (cmdCount st).1

/-- Source `length`: alias of `num_transitions`. -/
def length (st : Store) : Nat := num_transitions st

/-- Outcome of one `sample` call.  `looping` marks the unbounded draw loop
still running when the draw oracle is exhausted; `raised` marks a Python
exception (an absent reply fed into `pickle.loads`). -/
inductive SampleRes where
  | batch : List Transition → SampleRes
  | insufficient : Nat → SampleRes
  | looping : SampleRes
  | raised : SampleRes
  deriving DecidableEq, Repr

/-- Python dict assignment `d[key] = v`: replace in place when the key is
present, append otherwise. -/
def dictInsert (acc : List (Key × Transition)) (k : Key) (t : Transition) :
    List (Key × Transition) :=
  if (alistLookup k acc).isSome then acc.map (fun p => if p.1 = k then (k, t) else p)
  else acc ++ [(k, t)]

/-- Source draw loop of `sample` with `allow_duplicates_in_batch_sampling`:
`while len(transition_idx) != size: key = randomkey(); transition_idx[key] =
pickle.loads(get(key))`.  The accumulator is the python dict in insertion
order. -/
def sample_loop_dup (size : Nat) (seeds : List Nat) (acc : List (Key × Transition))
    (st : Store) : SampleRes × Store :=
  if acc.length = size then (SampleRes.batch (acc.map Prod.snd), st)
    else
      match seeds with
      | [] => (SampleRes.looping, st)
      | s :: rest =>
        match cmdRandomkey s st with
        | (none, st1) => (SampleRes.raised, st1)
        | (some k, st1) =>
          match cmdGet k st1 with
          | (none, st2) => (SampleRes.raised, st2)
          | (some b, st2) => sample_loop_dup size rest (dictInsert acc k (loads b)) st2

/-- Source draw loop of `sample` without duplicates: a key already collected is
skipped (`continue`) before any GET. -/
def sample_loop_nodup (size : Nat) (seeds : List Nat) (acc : List (Key × Transition))
    (st : Store) : SampleRes × Store :=
  if acc.length = size then (SampleRes.batch (acc.map Prod.snd), st)
    else
      match seeds with
      | [] => (SampleRes.looping, st)
      | s :: rest =>
        match cmdRandomkey s st with
        | (none, st1) => (SampleRes.raised, st1)
        | (some k, st1) =>
          if (alistLookup k acc).isSome then sample_loop_nodup size rest acc st1
          else
            match cmdGet k st1 with
            | (none, st2) => (SampleRes.raised, st2)
            | (some b, st2) => sample_loop_nodup size rest (acc ++ [(k, loads b)]) st2

/-- Source `sample(size)`: duplicates branch, or the count-guarded
no-duplicates branch whose failure is the ValueError carrying the current
count. -/
def sample (allowDup : Bool) (seeds : List Nat) (size : Nat) (st : Store) : SampleRes × Store :=
  if allowDup then sample_loop_dup size seeds [] st
  else
    match cmdCount st with
    | (c, st1) =>
      if size ≤ c then sample_loop_nodup size seeds [] st1
      else (SampleRes.insufficient c, st1)

/-- Source `_enforce_max_length`: `while size != 0 and num_transitions() > size:
delete(randomkey())`.  The absent-RANDOMKEY branch is sequentially unreachable
(the condition forces a non-empty namespace); there the source would hand the
absent marker to DEL, a behavior of the external client, and the model simply
returns the store. -/
def enforce_max_length (cap : Nat) (seeds : List Nat) (st : Store) : Store :=
  match cmdCount st with
    | (c, st1) =>
      if cap ≠ 0 ∧ cap < c then
        match seeds with
        | [] => st1
        | s :: rest =>
          match cmdRandomkey s st1 with
          | (none, st2) => st2
          | (some k, st2) => enforce_max_length cap rest (cmdDel k st2)
      else st1

/-- Source `store(transition)`: SET under a freshly minted uuid key, then
capacity enforcement. -/
def store (cap : Nat) (freshKey : Key) (seeds : List Nat) (t : Transition) (st : Store) : Store :=
  enforce_max_length cap seeds (cmdSet freshKey (dumps t) st)

/-- Outcome of `get_transition`: the fetched transition, or the TypeError that
`pickle.loads` raises on an absent (None) reply. -/
inductive GetRes where
  | found : Transition → GetRes
  | typeError : GetRes
  deriving DecidableEq, Repr

/-- Source `get_transition` (and its alias `get`): GET then `pickle.loads`.
An absent reply is passed straight to the deserializer, which raises. -/
def get_transition (k : Key) (st : Store) : GetRes × Store :=
  match cmdGet k st with
  | (some b, st1) => (GetRes.found (loads b), st1)
  | (none, st1) => (GetRes.typeError, st1)

/-- Source `remove_transition` (and its alias `remove`): DEL, idempotent. -/
def remove_transition (k : Key) (st : Store) : Store := cmdDel k st

/-- The whole redis server: database index to namespace. -/
abbrev RedisAll := Nat → Store

/-- Modelled from the spec: FLUSHALL empties every database of the server,
not only the caller's namespace. -/
def cmdFlushall (_r : RedisAll) : RedisAll := fun _ => []

/-- Source `clean`: issues FLUSHALL (not FLUSHDB), so every namespace of the
backing server is emptied. -/
def clean (r : RedisAll) : RedisAll := cmdFlushall r

/-- Outcome of `mean_reward`.  `nan` is the value numpy yields for the mean of
an empty list (a RuntimeWarning, not an exception); `err` marks a raised
exception (an absent GET reply fed to `pickle.loads`), sequentially
unreachable because every key scanned is live. -/
inductive MeanRes where
  | nan : MeanRes
  | val : ℚ → MeanRes
  | err : MeanRes
  deriving DecidableEq, Repr

/-- Modelled from numpy: `np.mean` is the arithmetic mean, and on the empty
list it evaluates to nan without raising. -/
def npMean (xs : List ℚ) : MeanRes :=
  if xs.length = 0 then MeanRes.nan else MeanRes.val (xs.sum / (xs.length : ℚ))

/-- Modelled from the spec: KEYS, the list of live keys of this namespace; a
read. -/
def cmdKeys (st : Store) : List Key × Store := (storeKeys st, st)

/-- Source `mean_reward`: GET and deserialize every live key, then average the
reward field with `np.mean`. -/
def mean_reward (st : Store) : MeanRes × Store :=
  match cmdKeys st with
  | (ks, st1) =>
    match ks.mapM (fun k => (cmdGet k st1).1) with
    | none => (MeanRes.err, st1)
    | some bs => (npMean (bs.map (fun b => (loads b).reward)), st1)

/-- Concrete transitions used by the closed instances below. -/
def tA : Transition := ⟨0, 0, 1, 1, false⟩

/-- Concrete transition. -/
def tB : Transition := ⟨1, 1, 2, 2, false⟩

/-- Concrete transition. -/
def tC : Transition := ⟨2, 0, 3, 3, true⟩

/-- Concrete transition. -/
def tD : Transition := ⟨3, 1, 4, 4, false⟩

/-- Concrete transition. -/
def tE : Transition := ⟨4, 0, 5, 5, true⟩

/-- Concrete draw oracle. -/
def exSeeds : List Nat := [0, 0, 0, 0, 0]

/-- Capacity 3, five transitions stored one at a time starting from the empty
namespace. -/
def exStore5 : Store :=
  store 3 50 exSeeds tE (store 3 40 exSeeds tD (store 3 30 exSeeds tC
    (store 3 20 exSeeds tB (store 3 10 exSeeds tA []))))

/-- The five pairs written by the five `store` calls of `exStore5`. -/
def exFivePairs : Store :=
  [(10, dumps tA), (20, dumps tB), (30, dumps tC), (40, dumps tD), (50, dumps tE)]

/-- A namespace holding a single transition. -/
def exOne : Store := [(5, dumps tA)]

/-- A namespace holding two transitions. -/
def exTwo : Store := [(5, dumps tA), (9, dumps tB)]

/-- A server with two populated namespaces (db 0 and db 1). -/
def exServer : RedisAll :=
  fun d => if d = 0 then [(5, dumps tA)] else if d = 1 then [(7, dumps tB)] else []

/-- Invariant of a draw-loop accumulator: the collected keys are pairwise
distinct and every collected pair was fetched and deserialized from a live
binding of the store. -/
def accGood (st : Store) (acc : List (Key × Transition)) : Prop :=
  (acc.map Prod.fst).Nodup ∧ ∀ p ∈ acc, alistLookup p.1 st = some (dumps p.2)

/-! Helper lemmas about the collaborator commands. -/

theorem alistLookup_eq_none {β : Type} (k : Key) :
    ∀ l : List (Key × β), alistLookup k l = none ↔ k ∉ l.map Prod.fst := by
  intro l
  induction l with
  | nil => simp [alistLookup]
  | cons p rest ih =>
    by_cases hp : p.1 = k
    · simp [alistLookup, hp]
    · simp only [alistLookup, if_neg hp, List.map_cons, List.mem_cons, ih]
      constructor
      · rintro h (h1 | h2)
        · exact hp h1.symm
        · exact h h2
      · intro h h2
        exact h (Or.inr h2)

theorem alistLookup_isSome {β : Type} (k : Key) (l : List (Key × β)) :
    (alistLookup k l).isSome = true ↔ k ∈ l.map Prod.fst := by
  rcases h : alistLookup k l with _ | b
  · simpa [h] using (alistLookup_eq_none k l).mp h
  · simp only [Option.isSome_some, true_iff]
    by_contra hmem
    rw [(alistLookup_eq_none k l).mpr hmem] at h
    exact Option.noConfusion h

theorem alistLookup_mem {β : Type} {k : Key} {b : β} :
    ∀ {l : List (Key × β)}, alistLookup k l = some b → (k, b) ∈ l := by
  intro l
  induction l with
  | nil => intro h; exact Option.noConfusion h
  | cons p rest ih =>
    intro h
    rw [alistLookup] at h
    by_cases hp : p.1 = k
    · rw [if_pos hp] at h
      injection h with h2
      rw [← hp, ← h2]
      exact List.mem_cons_self _ _
    · rw [if_neg hp] at h
      exact List.mem_cons.mpr (Or.inr (ih h))

theorem alistLookup_unique {β : Type} {k : Key} {b : β} :
    ∀ {l : List (Key × β)}, k ∈ l.map Prod.fst → (∀ p ∈ l, p.1 = k → p.2 = b) →
      alistLookup k l = some b := by
  intro l
  induction l with
  | nil => intro h _; simp at h
  | cons p rest ih =>
    intro hmem huniq
    rw [alistLookup]
    by_cases hp : p.1 = k
    · rw [if_pos hp, huniq p (List.mem_cons_self _ _) hp]
    · rw [if_neg hp]
      rw [List.map_cons] at hmem
      rcases List.mem_cons.mp hmem with h1 | h2
      · exact absurd h1.symm hp
      · exact ih h2 (fun q hq => huniq q (List.mem_cons.mpr (Or.inr hq)))

theorem mem_storeKeys_of_mem {st : Store} {p : Key × Blob} (h : p ∈ st) :
    p.1 ∈ storeKeys st := List.mem_map.mpr ⟨p, h, rfl⟩

theorem storeKeys_length (st : Store) : (storeKeys st).length = st.length := by
  simp [storeKeys]

theorem cmdRandomkey_fst_mem {s : Nat} {st : Store} {k : Key}
    (h : (cmdRandomkey s st).1 = some k) : k ∈ storeKeys st := by
  simp only [cmdRandomkey] at h
  exact List.getElem?_mem h

theorem cmdRandomkey_isSome {s : Nat} {st : Store} (h : st ≠ []) :
    ∃ k, (cmdRandomkey s st).1 = some k := by
  have hlt : s % st.length < (storeKeys st).length := by
    rw [storeKeys_length]
    exact Nat.mod_lt _ (List.length_pos.mpr h)
  exact ⟨_, by simp only [cmdRandomkey]; exact List.getElem?_eq_getElem hlt⟩

theorem cmdRandomkey_at {st : Store} {i : Nat} {k : Key} (hi : i < st.length)
    (hk : (storeKeys st)[i]? = some k) : (cmdRandomkey i st).1 = some k := by
  simp only [cmdRandomkey, Nat.mod_eq_of_lt hi]
  exact hk

theorem cmdDel_sublist (k : Key) : ∀ st : Store, (cmdDel k st).Sublist st := by
  intro st
  induction st with
  | nil => simp [cmdDel]
  | cons p rest ih =>
    rw [cmdDel]
    by_cases hp : p.1 = k
    · rw [if_pos hp]; exact List.sublist_cons_self p rest
    · rw [if_neg hp]; exact ih.cons₂ p

theorem cmdDel_length {k : Key} :
    ∀ {st : Store}, k ∈ storeKeys st → (cmdDel k st).length + 1 = st.length := by
  intro st
  induction st with
  | nil => intro h; simp [storeKeys] at h
  | cons p rest ih =>
    intro h
    rw [cmdDel]
    by_cases hp : p.1 = k
    · rw [if_pos hp]; rfl
    · rw [if_neg hp]
      have hk : k ∈ storeKeys rest := by
        rw [storeKeys, List.map_cons] at h
        rcases List.mem_cons.mp h with h1 | h2
        · exact absurd h1.symm hp
        · exact h2
      simp only [List.length_cons, ih hk]

theorem cmdSet_length_le (k : Key) (b : Blob) (st : Store) :
    (cmdSet k b st).length ≤ st.length + 1 := by
  rw [cmdSet]
  by_cases h : (alistLookup k st).isSome = true
  · rw [if_pos h, List.length_map]; exact Nat.le_succ _
  · rw [if_neg h, List.length_append]; simp

theorem cmdSet_fresh {k : Key} {st : Store} (h : k ∉ storeKeys st) (b : Blob) :
    cmdSet k b st = st ++ [(k, b)] := by
  rw [cmdSet, if_neg]
  intro hs
  exact h ((alistLookup_isSome k st).mp hs)

theorem dictInsert_keys_of_mem {acc : List (Key × Transition)} {k : Key} (t : Transition)
    (h : (alistLookup k acc).isSome = true) :
    (dictInsert acc k t).map Prod.fst = acc.map Prod.fst := by
  rw [dictInsert, if_pos h, List.map_map]
  refine List.map_congr_left ?_
  intro p _
  by_cases hp : p.1 = k
  · simp [hp]
  · simp [hp]

theorem dictInsert_of_not_mem {acc : List (Key × Transition)} {k : Key} (t : Transition)
    (h : ¬ (alistLookup k acc).isSome = true) :
    dictInsert acc k t = acc ++ [(k, t)] := by
  rw [dictInsert, if_neg h]

theorem dictInsert_mem_split {acc : List (Key × Transition)} {k : Key} {t : Transition}
    {p : Key × Transition} (hp : p ∈ dictInsert acc k t) : p = (k, t) ∨ p ∈ acc := by
  rw [dictInsert] at hp
  by_cases h : (alistLookup k acc).isSome = true
  · rw [if_pos h] at hp
    rcases List.mem_map.mp hp with ⟨q, hq, heq⟩
    by_cases hq1 : q.1 = k
    · rw [if_pos hq1] at heq; exact Or.inl heq.symm
    · rw [if_neg hq1] at heq; exact Or.inr (heq ▸ hq)
  · rw [if_neg h] at hp
    rcases List.mem_append.mp hp with h1 | h2
    · exact Or.inr h1
    · exact Or.inl (by simpa using h2)

/-! Unfolding lemmas for the draw and eviction loops. -/

theorem dumps_loads (b : Blob) : dumps (loads b) = b := rfl

theorem sample_true_eq (seeds : List Nat) (size : Nat) (st : Store) :
    sample true seeds size st = sample_loop_dup size seeds [] st := rfl

theorem sample_false_eq (seeds : List Nat) (size : Nat) (st : Store) :
    sample false seeds size st =
      if size ≤ st.length then sample_loop_nodup size seeds [] st
      else (SampleRes.insufficient st.length, st) := rfl

theorem sample_loop_dup_at_size {size : Nat} {seeds : List Nat}
    {acc : List (Key × Transition)} {st : Store} (h : acc.length = size) :
    sample_loop_dup size seeds acc st = (SampleRes.batch (acc.map Prod.snd), st) := by
  rw [sample_loop_dup.eq_def, if_pos h]

theorem sample_loop_dup_nil {size : Nat} {acc : List (Key × Transition)} {st : Store}
    (h : ¬ acc.length = size) :
    sample_loop_dup size [] acc st = (SampleRes.looping, st) := by
  rw [sample_loop_dup.eq_def, if_neg h]

theorem sample_loop_dup_cons {size s : Nat} {rest : List Nat}
    {acc : List (Key × Transition)} {st : Store} {k : Key} {b : Blob}
    (h : ¬ acc.length = size) (hk : (cmdRandomkey s st).1 = some k)
    (hb : alistLookup k st = some b) :
    sample_loop_dup size (s :: rest) acc st =
      sample_loop_dup size rest (dictInsert acc k (loads b)) st := by
  have hk2 : (storeKeys st)[s % st.length]? = some k := by simpa [cmdRandomkey] using hk
  rw [sample_loop_dup.eq_def, if_neg h]
  simp only [cmdRandomkey, cmdGet, hk2, hb]

theorem sample_loop_nodup_at_size {size : Nat} {seeds : List Nat}
    {acc : List (Key × Transition)} {st : Store} (h : acc.length = size) :
    sample_loop_nodup size seeds acc st = (SampleRes.batch (acc.map Prod.snd), st) := by
  rw [sample_loop_nodup.eq_def, if_pos h]

theorem sample_loop_nodup_nil {size : Nat} {acc : List (Key × Transition)} {st : Store}
    (h : ¬ acc.length = size) :
    sample_loop_nodup size [] acc st = (SampleRes.looping, st) := by
  rw [sample_loop_nodup.eq_def, if_neg h]

theorem sample_loop_nodup_cons_skip {size s : Nat} {rest : List Nat}
    {acc : List (Key × Transition)} {st : Store} {k : Key}
    (h : ¬ acc.length = size) (hk : (cmdRandomkey s st).1 = some k)
    (hacc : (alistLookup k acc).isSome = true) :
    sample_loop_nodup size (s :: rest) acc st = sample_loop_nodup size rest acc st := by
  have hk2 : (storeKeys st)[s % st.length]? = some k := by simpa [cmdRandomkey] using hk
  rw [sample_loop_nodup.eq_def, if_neg h]
  simp only [cmdRandomkey, cmdGet, hk2, if_pos hacc]

theorem sample_loop_nodup_cons_new {size s : Nat} {rest : List Nat}
    {acc : List (Key × Transition)} {st : Store} {k : Key} {b : Blob}
    (h : ¬ acc.length = size) (hk : (cmdRandomkey s st).1 = some k)
    (hacc : ¬ (alistLookup k acc).isSome = true) (hb : alistLookup k st = some b) :
    sample_loop_nodup size (s :: rest) acc st =
      sample_loop_nodup size rest (acc ++ [(k, loads b)]) st := by
  have hk2 : (storeKeys st)[s % st.length]? = some k := by simpa [cmdRandomkey] using hk
  rw [sample_loop_nodup.eq_def, if_neg h]
  simp only [cmdRandomkey, cmdGet, hk2, if_neg hacc, hb]

theorem enforce_stop {cap : Nat} {seeds : List Nat} {st : Store}
    (h : ¬ (cap ≠ 0 ∧ cap < st.length)) : enforce_max_length cap seeds st = st := by
  rw [enforce_max_length.eq_def]
  simp only [cmdCount, if_neg h]

theorem enforce_nil (cap : Nat) (st : Store) : enforce_max_length cap [] st = st := by
  rw [enforce_max_length.eq_def]
  simp only [cmdCount]
  split <;> rfl

theorem enforce_cons {cap s : Nat} {rest : List Nat} {st : Store} {k : Key}
    (hcond : cap ≠ 0 ∧ cap < st.length) (hk : (cmdRandomkey s st).1 = some k) :
    enforce_max_length cap (s :: rest) st = enforce_max_length cap rest (cmdDel k st) := by
  have hk2 : (storeKeys st)[s % st.length]? = some k := by simpa [cmdRandomkey] using hk
  rw [enforce_max_length.eq_def]
  simp only [cmdCount, if_pos hcond, cmdRandomkey, hk2]

/-! Frame lemmas: the draw loops only issue reads. -/

theorem sample_loop_dup_snd (size : Nat) (seeds : List Nat) :
    ∀ (acc : List (Key × Transition)) (st : Store),
      (sample_loop_dup size seeds acc st).2 = st := by
  induction seeds with
  | nil =>
    intro acc st
    by_cases h : acc.length = size
    · rw [sample_loop_dup_at_size h]
    · rw [sample_loop_dup_nil h]
  | cons s rest ih =>
    intro acc st
    by_cases h : acc.length = size
    · rw [sample_loop_dup_at_size h]
    · rw [sample_loop_dup.eq_def, if_neg h]
      simp only [cmdRandomkey, cmdGet]
      rcases hk : (storeKeys st)[s % st.length]? with _ | k
      · simp only [hk]
      · simp only [hk]
        rcases hb : alistLookup k st with _ | b
        · simp only [hb]
        · simp only [hb]
          exact ih (dictInsert acc k (loads b)) st

theorem sample_loop_nodup_snd (size : Nat) (seeds : List Nat) :
    ∀ (acc : List (Key × Transition)) (st : Store),
      (sample_loop_nodup size seeds acc st).2 = st := by
  induction seeds with
  | nil =>
    intro acc st
    by_cases h : acc.length = size
    · rw [sample_loop_nodup_at_size h]
    · rw [sample_loop_nodup_nil h]
  | cons s rest ih =>
    intro acc st
    by_cases h : acc.length = size
    · rw [sample_loop_nodup_at_size h]
    · rw [sample_loop_nodup.eq_def, if_neg h]
      simp only [cmdRandomkey, cmdGet]
      rcases hk : (storeKeys st)[s % st.length]? with _ | k
      · simp only [hk]
      · simp only [hk]
        by_cases hacc : (alistLookup k acc).isSome = true
        · rw [if_pos hacc]
          exact ih acc st
        · rw [if_neg hacc]
          rcases hb : alistLookup k st with _ | b
          · simp only [hb]
          · simp only [hb]
            exact ih (acc ++ [(k, loads b)]) st

/-! The draw loops never produce the insufficient-data error. -/

theorem sample_loop_nodup_ne_insufficient (size : Nat) (seeds : List Nat) :
    ∀ (acc : List (Key × Transition)) (st : Store) (c : Nat),
      (sample_loop_nodup size seeds acc st).1 ≠ SampleRes.insufficient c := by
  induction seeds with
  | nil =>
    intro acc st c
    by_cases h : acc.length = size
    · rw [sample_loop_nodup_at_size h]; simp
    · rw [sample_loop_nodup_nil h]; simp
  | cons s rest ih =>
    intro acc st c
    by_cases h : acc.length = size
    · rw [sample_loop_nodup_at_size h]; simp
    · rw [sample_loop_nodup.eq_def, if_neg h]
      simp only [cmdRandomkey, cmdGet]
      rcases hk : (storeKeys st)[s % st.length]? with _ | k
      · simp only [hk]; simp
      · simp only [hk]
        by_cases hacc : (alistLookup k acc).isSome = true
        · rw [if_pos hacc]
          exact ih acc st c
        · rw [if_neg hacc]
          rcases hb : alistLookup k st with _ | b
          · simp only [hb]; simp
          · simp only [hb]
            exact ih (acc ++ [(k, loads b)]) st c

/-! Preservation of the accumulator invariant. -/

theorem accGood_nil (st : Store) : accGood st [] := by
  constructor
  · simp
  · intro p hp
    exact absurd hp (List.not_mem_nil p)

theorem accGood_append {st : Store} {acc : List (Key × Transition)} {k : Key} {b : Blob}
    (hg : accGood st acc) (hb : alistLookup k st = some b)
    (hk : ¬ (alistLookup k acc).isSome = true) : accGood st (acc ++ [(k, loads b)]) := by
  have hknew : k ∉ acc.map Prod.fst := by
    intro hmem
    exact hk ((alistLookup_isSome k acc).mpr hmem)
  constructor
  · rw [List.map_append]
    simp only [List.map_cons, List.map_nil]
    rw [List.nodup_append]
    refine ⟨hg.1, List.nodup_singleton k, ?_⟩
    intro a ha hb2
    rcases List.mem_singleton.mp hb2 with rfl
    exact hknew ha
  · intro p hp
    rcases List.mem_append.mp hp with h1 | h2
    · exact hg.2 p h1
    · have hpe : p = (k, loads b) := List.mem_singleton.mp h2
      rw [hpe]
      simpa [dumps_loads] using hb

theorem accGood_dictInsert {st : Store} {acc : List (Key × Transition)} {k : Key} {b : Blob}
    (hg : accGood st acc) (hb : alistLookup k st = some b) :
    accGood st (dictInsert acc k (loads b)) := by
  by_cases hacc : (alistLookup k acc).isSome = true
  · constructor
    · rw [dictInsert_keys_of_mem _ hacc]
      exact hg.1
    · intro p hp
      rcases dictInsert_mem_split hp with h1 | h2
      · rw [h1]
        simpa [dumps_loads] using hb
      · exact hg.2 p h2
  · rw [dictInsert_of_not_mem _ hacc]
    exact accGood_append hg hb hacc

/-! Any batch returned by a draw loop collects exactly `size` pairwise-distinct
live keys. -/

theorem sample_loop_dup_batch (size : Nat) (seeds : List Nat) :
    ∀ (acc : List (Key × Transition)) (st : Store) (l : List Transition),
      accGood st acc → (sample_loop_dup size seeds acc st).1 = SampleRes.batch l →
      ∃ kts, accGood st kts ∧ kts.length = size ∧ l = kts.map Prod.snd := by
  induction seeds with
  | nil =>
    intro acc st l hg h
    by_cases hl : acc.length = size
    · rw [sample_loop_dup_at_size hl] at h
      simp only at h
      injection h with h2
      exact ⟨acc, hg, hl, h2.symm⟩
    · rw [sample_loop_dup_nil hl] at h
      simp at h
  | cons s rest ih =>
    intro acc st l hg h
    by_cases hl : acc.length = size
    · rw [sample_loop_dup_at_size hl] at h
      simp only at h
      injection h with h2
      exact ⟨acc, hg, hl, h2.symm⟩
    · rw [sample_loop_dup.eq_def, if_neg hl] at h
      simp only [cmdRandomkey, cmdGet] at h
      rcases hk : (storeKeys st)[s % st.length]? with _ | k
      · simp only [hk] at h; simp at h
      · simp only [hk] at h
        rcases hb : alistLookup k st with _ | b
        · simp only [hb] at h; simp at h
        · simp only [hb] at h
          exact ih (dictInsert acc k (loads b)) st l (accGood_dictInsert hg hb) h

theorem sample_loop_nodup_batch (size : Nat) (seeds : List Nat) :
    ∀ (acc : List (Key × Transition)) (st : Store) (l : List Transition),
      accGood st acc → (sample_loop_nodup size seeds acc st).1 = SampleRes.batch l →
      ∃ kts, accGood st kts ∧ kts.length = size ∧ l = kts.map Prod.snd := by
  induction seeds with
  | nil =>
    intro acc st l hg h
    by_cases hl : acc.length = size
    · rw [sample_loop_nodup_at_size hl] at h
      simp only at h
      injection h with h2
      exact ⟨acc, hg, hl, h2.symm⟩
    · rw [sample_loop_nodup_nil hl] at h
      simp at h
  | cons s rest ih =>
    intro acc st l hg h
    by_cases hl : acc.length = size
    · rw [sample_loop_nodup_at_size hl] at h
      simp only at h
      injection h with h2
      exact ⟨acc, hg, hl, h2.symm⟩
    · rw [sample_loop_nodup.eq_def, if_neg hl] at h
      simp only [cmdRandomkey, cmdGet] at h
      rcases hk : (storeKeys st)[s % st.length]? with _ | k
      · simp only [hk] at h; simp at h
      · simp only [hk] at h
        by_cases hacc : (alistLookup k acc).isSome = true
        · rw [if_pos hacc] at h
          exact ih acc st l hg h
        · rw [if_neg hacc] at h
          rcases hb : alistLookup k st with _ | b
          · simp only [hb] at h; simp at h
          · simp only [hb] at h
            exact ih (acc ++ [(k, loads b)]) st l (accGood_append hg hb hacc) h

/-! A batch forces the store to hold at least `size` distinct keys. -/

theorem accGood_length_le {st : Store} {kts : List (Key × Transition)}
    (hg : accGood st kts) : kts.length ≤ st.length := by
  have hsub : kts.map Prod.fst ⊆ storeKeys st := by
    intro a ha
    rcases List.mem_map.mp ha with ⟨p, hp, rfl⟩
    exact mem_storeKeys_of_mem (alistLookup_mem (hg.2 p hp))
  have hle := (hg.1.subperm hsub).length_le
  rw [storeKeys_length, List.length_map] at hle
  exact hle

/-! Reachability: with enough distinct keys, some draw sequence returns a full
batch. -/

theorem keys_nodup_append {acc : List (Key × Transition)} {k : Key} {t : Transition}
    (hnd2 : (acc.map Prod.fst).Nodup) (hknew : k ∉ acc.map Prod.fst) :
    ((acc ++ [(k, t)]).map Prod.fst).Nodup := by
  rw [List.map_append]
  simp only [List.map_cons, List.map_nil]
  rw [List.nodup_append]
  refine ⟨hnd2, List.nodup_singleton k, ?_⟩
  intro a ha hb2
  rcases List.mem_singleton.mp hb2 with rfl
  exact hknew ha

theorem exists_fresh_key {st : Store} {acc : List (Key × Transition)}
    (hnd : (storeKeys st).Nodup) (hlt : acc.length < st.length) :
    ∃ k ∈ storeKeys st, k ∉ acc.map Prod.fst := by
  by_contra hno
  push_neg at hno
  have hsubs : storeKeys st ⊆ acc.map Prod.fst := fun a ha => hno a ha
  have hle := (hnd.subperm hsubs).length_le
  rw [storeKeys_length, List.length_map] at hle
  omega

theorem sample_loop_nodup_reach (size : Nat) (st : Store) (hnd : (storeKeys st).Nodup)
    (hsz : size ≤ st.length) :
    ∀ (d : Nat) (acc : List (Key × Transition)), size - acc.length ≤ d →
      (acc.map Prod.fst).Nodup → (∀ p ∈ acc, p.1 ∈ storeKeys st) → acc.length ≤ size →
      ∃ seeds l, (sample_loop_nodup size seeds acc st).1 = SampleRes.batch l := by
  intro d
  induction d with
  | zero =>
    intro acc hd _hnd2 _hsub hle
    have hlen : acc.length = size := by omega
    exact ⟨[], acc.map Prod.snd, by rw [sample_loop_nodup_at_size hlen]⟩
  | succ d ih =>
    intro acc hd hnd2 hsub hle
    by_cases hlen : acc.length = size
    · exact ⟨[], acc.map Prod.snd, by rw [sample_loop_nodup_at_size hlen]⟩
    · have hlt : acc.length < size := lt_of_le_of_ne hle hlen
      rcases exists_fresh_key hnd (lt_of_lt_of_le hlt hsz) with ⟨k, hkmem, hknew⟩
      rcases List.mem_iff_getElem?.mp hkmem with ⟨i, hi⟩
      have hilt : i < st.length := by
        rcases List.getElem?_eq_some.mp hi with ⟨h2, _⟩
        rw [storeKeys_length] at h2
        exact h2
      have hkrand : (cmdRandomkey i st).1 = some k := cmdRandomkey_at hilt hi
      have hkS : (alistLookup k st).isSome = true := (alistLookup_isSome k st).mpr hkmem
      rcases Option.isSome_iff_exists.mp hkS with ⟨b, hb⟩
      have haccn : ¬ (alistLookup k acc).isSome = true :=
        fun hS => hknew ((alistLookup_isSome k acc).mp hS)
      have hgrow : (acc ++ [(k, loads b)]).length = acc.length + 1 := by simp
      rcases ih (acc ++ [(k, loads b)]) (by rw [hgrow]; omega)
          (keys_nodup_append hnd2 hknew)
          (by
            intro p hp
            rcases List.mem_append.mp hp with h1 | h2
            · exact hsub p h1
            · rcases List.mem_singleton.mp h2 with rfl
              exact hkmem)
          (by rw [hgrow]; omega) with ⟨seeds2, l, hres⟩
      refine ⟨i :: seeds2, l, ?_⟩
      rw [sample_loop_nodup_cons_new hlen hkrand haccn hb]
      exact hres

theorem sample_loop_dup_reach (size : Nat) (st : Store) (hnd : (storeKeys st).Nodup)
    (hsz : size ≤ st.length) :
    ∀ (d : Nat) (acc : List (Key × Transition)), size - acc.length ≤ d →
      (acc.map Prod.fst).Nodup → (∀ p ∈ acc, p.1 ∈ storeKeys st) → acc.length ≤ size →
      ∃ seeds l, (sample_loop_dup size seeds acc st).1 = SampleRes.batch l := by
  intro d
  induction d with
  | zero =>
    intro acc hd _hnd2 _hsub hle
    have hlen : acc.length = size := by omega
    exact ⟨[], acc.map Prod.snd, by rw [sample_loop_dup_at_size hlen]⟩
  | succ d ih =>
    intro acc hd hnd2 hsub hle
    by_cases hlen : acc.length = size
    · exact ⟨[], acc.map Prod.snd, by rw [sample_loop_dup_at_size hlen]⟩
    · have hlt : acc.length < size := lt_of_le_of_ne hle hlen
      rcases exists_fresh_key hnd (lt_of_lt_of_le hlt hsz) with ⟨k, hkmem, hknew⟩
      rcases List.mem_iff_getElem?.mp hkmem with ⟨i, hi⟩
      have hilt : i < st.length := by
        rcases List.getElem?_eq_some.mp hi with ⟨h2, _⟩
        rw [storeKeys_length] at h2
        exact h2
      have hkrand : (cmdRandomkey i st).1 = some k := cmdRandomkey_at hilt hi
      have hkS : (alistLookup k st).isSome = true := (alistLookup_isSome k st).mpr hkmem
      rcases Option.isSome_iff_exists.mp hkS with ⟨b, hb⟩
      have haccn : ¬ (alistLookup k acc).isSome = true :=
        fun hS => hknew ((alistLookup_isSome k acc).mp hS)
      have hgrow : (acc ++ [(k, loads b)]).length = acc.length + 1 := by simp
      rcases ih (acc ++ [(k, loads b)]) (by rw [hgrow]; omega)
          (keys_nodup_append hnd2 hknew)
          (by
            intro p hp
            rcases List.mem_append.mp hp with h1 | h2
            · exact hsub p h1
            · rcases List.mem_singleton.mp h2 with rfl
              exact hkmem)
          (by rw [hgrow]; omega) with ⟨seeds2, l, hres⟩
      refine ⟨i :: seeds2, l, ?_⟩
      rw [sample_loop_dup_cons hlen hkrand hb, dictInsert_of_not_mem _ haccn]
      exact hres

/-! The eviction loop: bound on the final length and a sublist relation. -/

theorem enforce_length_le (cap : Nat) (hcap : cap ≠ 0) :
    ∀ (seeds : List Nat) (st : Store), st.length ≤ seeds.length + cap →
      (enforce_max_length cap seeds st).length ≤ cap := by
  intro seeds
  induction seeds with
  | nil =>
    intro st hfuel
    rw [enforce_nil]
    simpa using hfuel
  | cons s rest ih =>
    intro st hfuel
    by_cases hcond : cap ≠ 0 ∧ cap < st.length
    · have hne : st ≠ [] :=
        List.length_pos.mp (Nat.lt_of_le_of_lt (Nat.zero_le cap) hcond.2)
      rcases cmdRandomkey_isSome (s := s) hne with ⟨k, hk⟩
      rw [enforce_cons hcond hk]
      refine ih (cmdDel k st) ?_
      have hdel := cmdDel_length (cmdRandomkey_fst_mem hk)
      simp only [List.length_cons] at hfuel
      omega
    · rw [enforce_stop hcond]
      rcases not_and_or.mp hcond with h1 | h2
      · exact absurd hcap (by simpa using h1)
      · omega

theorem enforce_sublist (cap : Nat) :
    ∀ (seeds : List Nat) (st : Store), (enforce_max_length cap seeds st).Sublist st := by
  intro seeds
  induction seeds with
  | nil =>
    intro st
    rw [enforce_nil]
  | cons s rest ih =>
    intro st
    by_cases hcond : cap ≠ 0 ∧ cap < st.length
    · have hne : st ≠ [] :=
        List.length_pos.mp (Nat.lt_of_le_of_lt (Nat.zero_le cap) hcond.2)
      rcases cmdRandomkey_isSome (s := s) hne with ⟨k, hk⟩
      rw [enforce_cons hcond hk]
      exact (ih (cmdDel k st)).trans (cmdDel_sublist k st)
    · rw [enforce_stop hcond]

/-! Helpers for the round-trip law and the reward mean. -/

theorem store_value_preserved {cap : Nat} {seeds : List Nat} {k : Key} {t : Transition}
    {st : Store} (hfresh : k ∉ storeKeys st)
    (hlive : k ∈ storeKeys (store cap k seeds t st)) :
    alistLookup k (store cap k seeds t st) = some (dumps t) := by
  have hset : cmdSet k (dumps t) st = st ++ [(k, dumps t)] := cmdSet_fresh hfresh _
  have hsub : (store cap k seeds t st).Sublist (st ++ [(k, dumps t)]) := by
    rw [store, hset]
    exact enforce_sublist cap seeds _
  refine alistLookup_unique hlive ?_
  intro p hp hpk
  have hpmem : p ∈ st ++ [(k, dumps t)] := hsub.subset hp
  rcases List.mem_append.mp hpmem with h1 | h2
  · exact absurd (hpk ▸ mem_storeKeys_of_mem h1) hfresh
  · rcases List.mem_singleton.mp h2 with rfl
    rfl

theorem lookup_self {st : Store} (hnd : (storeKeys st).Nodup) :
    ∀ p ∈ st, alistLookup p.1 st = some p.2 := by
  intro p hp
  refine alistLookup_unique (mem_storeKeys_of_mem hp) ?_
  intro q hq hqk
  have hq2 : q = p := List.inj_on_of_nodup_map hnd hq hp hqk
  rw [hq2]

theorem mapM_lookup (full : Store) :
    ∀ (st : Store), (∀ p ∈ st, alistLookup p.1 full = some p.2) →
      (storeKeys st).mapM (fun k => alistLookup k full) = some (st.map Prod.snd) := by
  intro st
  induction st with
  | nil => intro _; rfl
  | cons p rest ih =>
    intro h
    have h1 := h p (List.mem_cons_self p rest)
    have h2 := ih (fun q hq => h q (List.mem_cons.mpr (Or.inr hq)))
    rw [storeKeys] at h2 ⊢
    simp only [List.map_cons, List.mapM_cons, h1, h2]
    rfl

/-! Claim theorems. -/

/-- C5: the claim says a `Get` on an absent key returns absent rather than
raising.  The code instead feeds the absent reply into `pickle.loads`, which
raises TypeError, contradicting the method docstring; this theorem evaluates
the code at the failing inputs.  The `Remove` half of the claim does hold:
removing an absent key is a no-op, but a removed key's subsequent `Get`
raises instead of returning absent. -/
theorem c5_get_absent_raises :
    (get_transition 0 []).1 = GetRes.typeError
    ∧ remove_transition 0 [] = []
    ∧ remove_transition 5 exOne = []
    ∧ (get_transition 5 (remove_transition 5 exOne)).1 = GetRes.typeError := by
  decide

/-- C6: `Count` (num_transitions) and its alias `length` return the number of
live transitions of the buffer's namespace, and 0 on an empty namespace. -/
theorem c6_count_live_transitions (st : Store) :
    num_transitions st = st.length ∧ length st = num_transitions st
    ∧ num_transitions ([] : Store) = 0 :=
  ⟨rfl, rfl, rfl⟩

/-- C8 counterexample: the claim says `clean` leaves keys of other namespaces
unchanged; the code issues FLUSHALL, so namespace 1 of a server with two
populated namespaces is emptied by a buffer living on namespace 0. -/
theorem c8_counterexample_flushall :
    clean exServer 1 = [] ∧ exServer 1 ≠ [] := by
  refine ⟨rfl, ?_⟩
  decide

/-- C8 (amended): `clean` removes all transitions of every namespace of the
backing server (FLUSHALL, not FLUSHDB); afterwards the buffer's count is 0,
and every other namespace is also empty. -/
theorem c8_clean_flushes_every_namespace (r : RedisAll) (d : Nat) :
    clean r d = [] ∧ num_transitions (clean r d) = 0 :=
  ⟨rfl, rfl⟩

/-- C10: `sample` never modifies the store: whatever the duplicates policy,
the draw oracle, the batch size and the starting state, and whether the call
returns a batch, fails with the insufficient-data error, raises, or is still
looping, the namespace after the call is identical to the namespace before. -/
theorem c10_sample_frame (allowDup : Bool) (seeds : List Nat) (size : Nat) (st : Store) :
    (sample allowDup seeds size st).2 = st := by
  cases allowDup
  · rw [sample_false_eq]
    by_cases h : size ≤ st.length
    · rw [if_pos h]
      exact sample_loop_nodup_snd size seeds [] st
    · rw [if_neg h]
  · rw [sample_true_eq]
    exact sample_loop_dup_snd size seeds [] st

/-- C1: with duplicates disallowed, `sample(n)` fails with the insufficient-data
error (the ValueError carrying the current count) iff the live transition count
at call time is below `n`; any batch it returns consists of exactly `n`
transitions collected under `n` pairwise-distinct live keys — never a shorter
batch — and when the count is at least `n` a full batch is actually returned
under a suitable draw sequence. -/
theorem c1_sample_nodup_exact (st : Store) (size : Nat) (hnd : (storeKeys st).Nodup) :
    (∀ seeds, ((∃ c, (sample false seeds size st).1 = SampleRes.insufficient c) ↔
        st.length < size))
    ∧ (∀ seeds l, (sample false seeds size st).1 = SampleRes.batch l →
        ∃ kts, accGood st kts ∧ kts.length = size ∧ l.length = size ∧ l = kts.map Prod.snd)
    ∧ (size ≤ st.length → ∃ seeds l, (sample false seeds size st).1 = SampleRes.batch l) := by
  refine ⟨?_, ?_, ?_⟩
  · intro seeds
    rw [sample_false_eq]
    by_cases h : size ≤ st.length
    · rw [if_pos h]
      constructor
      · rintro ⟨c, hres⟩
        exact absurd hres (sample_loop_nodup_ne_insufficient size seeds [] st c)
      · intro hlt
        omega
    · rw [if_neg h]
      constructor
      · intro _
        omega
      · intro _
        exact ⟨st.length, rfl⟩
  · intro seeds l h
    rw [sample_false_eq] at h
    by_cases hle : size ≤ st.length
    · rw [if_pos hle] at h
      rcases sample_loop_nodup_batch size seeds [] st l (accGood_nil st) h with ⟨kts, hg, hlen, hl⟩
      exact ⟨kts, hg, hlen, by rw [hl, List.length_map, hlen], hl⟩
    · rw [if_neg hle] at h
      simp at h
  · intro hsz
    rcases sample_loop_nodup_reach size st hnd hsz size [] (by simp) (by simp)
        (by intro p hp; exact absurd hp (List.not_mem_nil p)) (by simp) with ⟨seeds, l, h⟩
    refine ⟨seeds, l, ?_⟩
    rw [sample_false_eq, if_pos hsz]
    exact h

/-- C1 witness: the namespace `exTwo` holds two distinct keys, and the C1
properties hold there at batch size 1. -/
theorem c1_sample_nodup_exact_witness :
    (storeKeys exTwo).Nodup ∧
    ((∀ seeds, ((∃ c, (sample false seeds 1 exTwo).1 = SampleRes.insufficient c) ↔
        exTwo.length < 1))
    ∧ (∀ seeds l, (sample false seeds 1 exTwo).1 = SampleRes.batch l →
        ∃ kts, accGood exTwo kts ∧ kts.length = 1 ∧ l.length = 1 ∧ l = kts.map Prod.snd)
    ∧ (1 ≤ exTwo.length → ∃ seeds l, (sample false seeds 1 exTwo).1 = SampleRes.batch l)) :=
  ⟨by decide, c1_sample_nodup_exact exTwo 1 (by decide)⟩

/-- C2: after any completed `store` whose eviction loop is given enough draws,
the namespace holds at most `cap` transitions (for `cap` nonzero), the
surviving bindings are a sublist of the namespace as it stood right after the
SET, and concretely: with capacity 3, storing five transitions one at a time
yields a final count of exactly 3 whose survivors are among the five stored
pairs. -/
theorem c2_store_capacity_bound (cap : Nat) (seeds : List Nat) (k : Key) (t : Transition)
    (st : Store) (hcap : cap ≠ 0) (hfuel : st.length + 1 ≤ seeds.length + cap) :
    (store cap k seeds t st).length ≤ cap
    ∧ (store cap k seeds t st).Sublist (cmdSet k (dumps t) st)
    ∧ exStore5.length = 3 ∧ (∀ p ∈ exStore5, p ∈ exFivePairs) := by
  refine ⟨?_, ?_, by decide, by decide⟩
  · rw [store]
    refine enforce_length_le cap hcap seeds _ ?_
    have := cmdSet_length_le k (dumps t) st
    omega
  · rw [store]
    exact enforce_sublist cap seeds _

/-- C2 witness: storing into the empty namespace with capacity 3 and a
five-draw oracle. -/
theorem c2_store_capacity_bound_witness :
    ((3 : Nat) ≠ 0 ∧ ([] : Store).length + 1 ≤ exSeeds.length + 3) ∧
    ((store 3 10 exSeeds tA []).length ≤ 3
    ∧ (store 3 10 exSeeds tA []).Sublist (cmdSet 10 (dumps tA) [])
    ∧ exStore5.length = 3 ∧ (∀ p ∈ exStore5, p ∈ exFivePairs)) :=
  ⟨⟨by decide, by decide⟩, c2_store_capacity_bound 3 exSeeds 10 tA [] (by decide) (by decide)⟩

/-- C3 counterexample: the claim promises a full batch whenever the store is
non-empty, but on a namespace holding a single transition a request of size 2
can never return a batch — the draw loop keys its python dict by key, so it
can never collect two distinct keys and runs forever. -/
theorem c3_counterexample_nonempty_small :
    exOne ≠ [] ∧ ¬ ∃ seeds l, (sample true seeds 2 exOne).1 = SampleRes.batch l := by
  refine ⟨by decide, ?_⟩
  rintro ⟨seeds, l, h⟩
  rw [sample_true_eq] at h
  rcases sample_loop_dup_batch 2 seeds [] exOne l (accGood_nil exOne) h with ⟨kts, hg, hlen, _⟩
  have hle := accGood_length_le hg
  have hone : exOne.length = 1 := rfl
  omega

/-- C3 (amended): with duplicates allowed, the draw loop records fetched
transitions in a dict keyed by key until `n` distinct keys are collected, so a
returned batch always holds exactly `n` transitions under `n` pairwise-distinct
live keys; a full batch is reachable whenever the store holds at least `n`
transitions, but when the store holds fewer than `n` (even though non-empty)
no draw sequence ever produces a batch — the loop does not terminate. -/
theorem c3_sample_dup_amended (st : Store) (size : Nat) (hnd : (storeKeys st).Nodup) :
    (∀ seeds l, (sample true seeds size st).1 = SampleRes.batch l →
        ∃ kts, accGood st kts ∧ kts.length = size ∧ l.length = size ∧ l = kts.map Prod.snd)
    ∧ (size ≤ st.length → ∃ seeds l, (sample true seeds size st).1 = SampleRes.batch l)
    ∧ (st.length < size → ∀ seeds l, (sample true seeds size st).1 ≠ SampleRes.batch l) := by
  refine ⟨?_, ?_, ?_⟩
  · intro seeds l h
    rw [sample_true_eq] at h
    rcases sample_loop_dup_batch size seeds [] st l (accGood_nil st) h with ⟨kts, hg, hlen, hl⟩
    exact ⟨kts, hg, hlen, by rw [hl, List.length_map, hlen], hl⟩
  · intro hsz
    rcases sample_loop_dup_reach size st hnd hsz size [] (by simp) (by simp)
        (by intro p hp; exact absurd hp (List.not_mem_nil p)) (by simp) with ⟨seeds, l, h⟩
    exact ⟨seeds, l, by rw [sample_true_eq]; exact h⟩
  · intro hlt seeds l h
    rw [sample_true_eq] at h
    rcases sample_loop_dup_batch size seeds [] st l (accGood_nil st) h with ⟨kts, hg, hlen, _⟩
    have hle := accGood_length_le hg
    omega

/-- C3 witness: the two-key namespace satisfies the amended duplicate-sampling
properties at batch size 2. -/
theorem c3_sample_dup_amended_witness :
    (storeKeys exTwo).Nodup ∧
    ((∀ seeds l, (sample true seeds 2 exTwo).1 = SampleRes.batch l →
        ∃ kts, accGood exTwo kts ∧ kts.length = 2 ∧ l.length = 2 ∧ l = kts.map Prod.snd)
    ∧ (2 ≤ exTwo.length → ∃ seeds l, (sample true seeds 2 exTwo).1 = SampleRes.batch l)
    ∧ (exTwo.length < 2 → ∀ seeds l, (sample true seeds 2 exTwo).1 ≠ SampleRes.batch l)) :=
  ⟨by decide, c3_sample_dup_amended exTwo 2 (by decide)⟩

/-- C4: a `get_transition` on the key minted by a `store`, when that key
survived the eviction pass (no intervening eviction or removal), returns
exactly the stored transition: deserialize after serialize is the identity on
buffer-produced payloads and the eviction loop never rewrites surviving
bindings. -/
theorem c4_store_get_roundtrip (cap : Nat) (seeds : List Nat) (k : Key) (t : Transition)
    (st : Store) (hfresh : k ∉ storeKeys st)
    (hlive : k ∈ storeKeys (store cap k seeds t st)) :
    (get_transition k (store cap k seeds t st)).1 = GetRes.found t := by
  have hlook := store_value_preserved hfresh hlive
  rw [get_transition]
  simp only [cmdGet, hlook]
  rfl

/-- C4 witness: storing `tA` under key 10 into the empty namespace with
capacity 3 keeps key 10 live, and `get_transition` returns `tA`. -/
theorem c4_store_get_roundtrip_witness :
    ((10 : Key) ∉ storeKeys [] ∧ (10 : Key) ∈ storeKeys (store 3 10 exSeeds tA [])) ∧
    (get_transition 10 (store 3 10 exSeeds tA [])).1 = GetRes.found tA :=
  ⟨⟨by decide, by decide⟩, c4_store_get_roundtrip 3 exSeeds 10 tA [] (by decide) (by decide)⟩

/-- C7 counterexample: the claim says `mean_reward` fails with an error on an
empty buffer; the code instead evaluates `np.mean` of an empty list, which
yields nan as an ordinary return value (a RuntimeWarning, not a raised
error). -/
theorem c7_counterexample_empty_mean :
    (mean_reward []).1 = MeanRes.nan ∧ MeanRes.nan ≠ MeanRes.err := by
  decide

/-- C7 (amended): on an empty buffer `mean_reward` returns nan (numpy's value
for the mean of an empty list) rather than failing; on a non-empty buffer it
returns the arithmetic mean of the `reward` field over every live
transition. -/
theorem c7_mean_reward_amended (st : Store) (hne : st ≠ []) (hnd : (storeKeys st).Nodup) :
    (mean_reward st).1 =
      MeanRes.val ((st.map (fun p => (loads p.2).reward)).sum / (st.length : ℚ))
    ∧ (mean_reward ([] : Store)).1 = MeanRes.nan := by
  refine ⟨?_, by decide⟩
  rw [mean_reward]
  simp only [cmdKeys, cmdGet]
  rw [mapM_lookup st st (lookup_self hnd)]
  simp only [npMean]
  rw [if_neg (by
    simp only [List.length_map]
    exact fun h0 => hne (List.length_eq_zero.mp h0))]
  simp only [List.map_map, List.length_map]
  rfl

/-- C7 witness: the two-transition namespace has mean reward 3/2, and the
empty namespace yields nan. -/
theorem c7_mean_reward_amended_witness :
    (exTwo ≠ [] ∧ (storeKeys exTwo).Nodup) ∧
    ((mean_reward exTwo).1 =
      MeanRes.val ((exTwo.map (fun p => (loads p.2).reward)).sum / (exTwo.length : ℚ))
    ∧ (mean_reward ([] : Store)).1 = MeanRes.nan) :=
  ⟨⟨by decide, by decide⟩, c7_mean_reward_amended exTwo (by decide) (by decide)⟩
